import Mathlib

/-!
Shallow embedding of the Othello engine (`othello.py`): the board
state/legality engine (`OthelloBoard`), the heuristic evaluator and the
minimax search with alpha-beta pruning (`OthelloCPU`).  Machine integers
are modelled as `Int` (Python ints are unbounded); the floats used by the
search only ever hold integer scores or the two infinities, so they are
modelled as `WithBot (WithTop Int)`.  Fallible operations (the positional
table lookup, which raises `IndexError` for coordinates beyond 8) return
`Option`.
-/

namespace Othello

/-- `class Player(Enum)`: BLACK = 1, WHITE = -1, EMPTY = 0. -/
inductive Player where
  | BLACK
  | WHITE
  | EMPTY
deriving DecidableEq, Repr

/-- `Player.value` of the enum member. -/
def Player.value : Player → Int
  | .BLACK => 1
  | .WHITE => -1
  | .EMPTY => 0

/-- `OthelloBoard`: `size` plus the numpy `(size, size)` int grid, stored
row-major as a flat list (`board[r, c]` lives at index `r * size + c`). -/
structure Board where
  size : Nat
  cells : List Int
deriving DecidableEq, Repr

/-- The bounds test `0 <= r < self.size and 0 <= c < self.size`. -/
def inBounds (n : Nat) (r c : Int) : Prop :=
  0 ≤ r ∧ r < (n : Int) ∧ 0 ≤ c ∧ c < (n : Int)

instance (n : Nat) (r c : Int) : Decidable (inBounds n r c) := by
  unfold inBounds; infer_instance

/-- Reading `self.board[r, c]` (every read in the source is guarded by the
bounds test, so the out-of-bounds default 0 is never observable). -/
def Board.get (b : Board) (r c : Int) : Int :=
  if inBounds b.size r c then b.cells.getD (r.toNat * b.size + c.toNat) 0 else 0

/-- Writing `self.board[r, c] = v` (every write in the source is at an
in-bounds coordinate). -/
def Board.set (b : Board) (r c : Int) (v : Int) : Board :=
  ⟨b.size, b.cells.set (r.toNat * b.size + c.toNat) v⟩

/-- The direction list used by `is_valid_move` and `make_move`. -/
def directions : List (Int × Int) :=
  [(-1, -1), (-1, 0), (-1, 1), (0, -1), (0, 1), (1, -1), (1, 0), (1, 1)]

/-- The cells visited by the `while 0 <= r < self.size and 0 <= c < self.size`
walk of `_can_flip_in_direction` / `_flip_pieces_in_direction`: successive
steps `(r + k*dr, c + k*dc)` for `k = 1, 2, ...` up to the first
out-of-bounds cell.  For a nonzero direction started in bounds the walk
leaves the board after at most `n` steps, so the `n`-step window is exact. -/
def ray (n : Nat) (r c dr dc : Int) : List (Int × Int) :=
  ((List.range n).map fun k => (r + (k + 1 : Nat) * dr, c + (k + 1 : Nat) * dc)).takeWhile
    fun p => decide (inBounds n p.1 p.2)

/-- The body of `_can_flip_in_direction`'s walk over the ray cells, carrying
the `found_opponent` flag; returns `false` when the walk runs off the board. -/
def canFlipScan (b : Board) (pl : Player) : List (Int × Int) → Bool → Bool
  | [], _ => false
  | p :: rest, found =>
    if b.get p.1 p.2 = Player.EMPTY.value then false
    else if b.get p.1 p.2 = pl.value then found
    else canFlipScan b pl rest true

/-- `OthelloBoard._can_flip_in_direction`. -/
def canFlipInDirection (b : Board) (r c dr dc : Int) (pl : Player) : Bool :=
  canFlipScan b pl (ray b.size r c dr dc) false

/-- `OthelloBoard.is_valid_move`. -/
def isValidMove (b : Board) (r c : Int) (pl : Player) : Bool :=
  if ¬ inBounds b.size r c then false
  else if b.get r c ≠ Player.EMPTY.value then false
  else directions.any fun d => canFlipInDirection b r c d.1 d.2 pl

/-- The body of `_flip_pieces_in_direction`'s walk: set each ray cell to the
mover's colour, stopping at the first cell already holding it. -/
def flipWalk (pl : Player) : Board → List (Int × Int) → Board
  | b, [] => b
  | b, p :: rest =>
    if b.get p.1 p.2 = pl.value then b
    else flipWalk pl (b.set p.1 p.2 pl.value) rest

/-- `OthelloBoard._flip_pieces_in_direction`. -/
def flipPiecesInDirection (b : Board) (r c dr dc : Int) (pl : Player) : Board :=
  flipWalk pl b (ray b.size r c dr dc)

/-- One iteration of `make_move`'s direction loop: flip along `d` when the
direction admits a flip from `(r, c)`. -/
def flipStep (r c : Int) (pl : Player) (bd : Board) (d : Int × Int) : Board :=
  if canFlipInDirection bd r c d.1 d.2 pl then
    flipPiecesInDirection bd r c d.1 d.2 pl
  else bd

/-- `OthelloBoard.make_move`, functionally: the returned `Bool` is the
source's return value, the returned `Board` the state after the call. -/
def makeMove (b : Board) (r c : Int) (pl : Player) : Bool × Board :=
  if ¬ isValidMove b r c pl then (false, b)
  else (true, directions.foldl (flipStep r c pl) (b.set r c pl.value))

/-- `OthelloBoard.get_valid_moves`: row-major enumeration of the cells
passing `is_valid_move`. -/
def getValidMoves (b : Board) (pl : Player) : List (Int × Int) :=
  (List.range b.size).flatMap fun rr : Nat =>
    (List.range b.size).filterMap fun cc : Nat =>
      if isValidMove b (rr : Int) (cc : Int) pl then some ((rr : Int), (cc : Int)) else none

/-- `OthelloBoard.get_score`: `(black_score, white_score)`. -/
def getScore (b : Board) : Int × Int :=
  ((b.cells.count Player.BLACK.value : Int), (b.cells.count Player.WHITE.value : Int))

/-- `OthelloBoard.is_game_over`. -/
def isGameOver (b : Board) : Bool :=
  (getValidMoves b Player.BLACK).isEmpty && (getValidMoves b Player.WHITE).isEmpty

/-- `OthelloBoard._setup_initial_position`. -/
def setupInitialPosition (b : Board) : Board :=
  let center : Int := (b.size : Int) / 2
  ((((b.set (center - 1) (center - 1) Player.WHITE.value).set
      (center - 1) center Player.BLACK.value).set
      center (center - 1) Player.BLACK.value).set
      center center Player.WHITE.value)

/-- `OthelloBoard.__init__`: a zero grid with the four centre pieces. -/
def mkBoard (size : Nat) : Board :=
  setupInitialPosition ⟨size, List.replicate (size * size) 0⟩

/-- A board is well formed when its flat grid has exactly `size * size`
cells (always true of the numpy array of the source). -/
def WF (b : Board) : Prop := b.cells.length = b.size * b.size

instance (b : Board) : Decidable (WF b) := by unfold WF; infer_instance

/-- `board.copy()` followed by `test_board.make_move(move[0], move[1], actor)`:
the hypothetical next board explored by the search. -/
def childBoard (b : Board) (m : Int × Int) (pl : Player) : Board :=
  (makeMove b m.1 m.2 pl).2

/-- `OthelloCPU.__init__`: `self.opponent`. -/
def opponentOf (pl : Player) : Player :=
  if pl = Player.BLACK then Player.WHITE else Player.BLACK

/-- `OthelloCPU.position_values`, the fixed 8×8 heuristic table. -/
def positionValues : List (List Int) :=
  [[100, -20, 10, 5, 5, 10, -20, 100],
   [-20, -50, -2, -2, -2, -2, -50, -20],
   [10, -2, -1, -1, -1, -1, -2, 10],
   [5, -2, -1, -1, -1, -1, -2, 5],
   [5, -2, -1, -1, -1, -1, -2, 5],
   [10, -2, -1, -1, -1, -1, -2, 10],
   [-20, -50, -2, -2, -2, -2, -50, -20],
   [100, -20, 10, 5, 5, 10, -20, 100]]

/-- `self.position_values[row, col]`: `none` models the numpy `IndexError`
raised when the coordinate falls outside the fixed 8×8 table. -/
def positionValueAt (row col : Nat) : Option Int :=
  (positionValues.get? row).bind fun l => l.get? col

/-- One iteration of `_evaluate_board`'s position loop: the table is only
indexed when the cell is owned by the player or the opponent. -/
def posCell? (pl : Player) (b : Board) (row col : Nat) : Option Int :=
  if b.get row col = pl.value then positionValueAt row col
  else if b.get row col = (opponentOf pl).value then (positionValueAt row col).map (- ·)
  else some 0

/-- The row-major cell enumeration of `_evaluate_board`'s nested loops. -/
def allPositions (n : Nat) : List (Nat × Nat) :=
  (List.range n).flatMap fun r => (List.range n).map fun c => (r, c)

/-- `_evaluate_board`'s `position_score` accumulation; `none` as soon as a
table lookup fails, as the exception aborts the whole evaluation. -/
def positionScore? (pl : Player) (b : Board) : Option Int :=
  (allPositions b.size).foldl
    (fun acc rc => acc.bind fun s => (posCell? pl b rc.1 rc.2).map fun t => s + t)
    (some 0)

/-- `OthelloCPU._evaluate_board` for a CPU whose `self.player` is `pl`
(`self.opponent` is always the other colour, per `__init__`). -/
def evaluateBoard? (pl : Player) (b : Board) : Option Int :=
  if isGameOver b then
    let sc := getScore b
    some (if pl = Player.BLACK then
            (if sc.1 > sc.2 then 1000 else if sc.1 < sc.2 then -1000 else 0)
          else
            (if sc.2 > sc.1 then 1000 else if sc.2 < sc.1 then -1000 else 0))
  else
    let sc := getScore b
    let pieceDiff := (sc.1 - sc.2) * (if pl = Player.BLACK then 1 else -1)
    (positionScore? pl b).map fun ps =>
      pieceDiff * 10 + ps +
        (((getValidMoves b pl).length : Int) -
          ((getValidMoves b (opponentOf pl)).length : Int)) * 5

/-- Total projection of the evaluator, used by the search definitions; it
agrees with `evaluateBoard?` on every board of size at most 8, where the
table lookups cannot fail (`evaluateBoard_total_of_size_le_eight`). -/
def evalT (pl : Player) (b : Board) : Int :=
  (evaluateBoard? pl b).getD 0

/-- The score domain of the search: Python floats holding either an integer
score or `float('-inf')` / `float('inf')`. -/
abbrev EInt := WithBot (WithTop Int)

/-- A finite score as an extended score. -/
def EInt.ofInt (v : Int) : EInt := ((v : WithTop Int) : WithBot (WithTop Int))

/-- The maximizing loop of `_minimax`, fail-soft with running `max_score`,
`alpha` raising, and the `beta <= alpha` cutoff checked after each move. -/
def abMaxGo (f : Board → EInt → EInt → EInt) (b : Board) (actor : Player) :
    List (Int × Int) → EInt → EInt → EInt → EInt
  | [], acc, _, _ => acc
  | m :: rest, acc, alpha, beta =>
    let s := f (childBoard b m actor) alpha beta
    let acc' := max acc s
    let alpha' := max alpha s
    if beta ≤ alpha' then acc' else abMaxGo f b actor rest acc' alpha' beta

/-- The minimizing loop of `_minimax`, mirror image of `abMaxGo`. -/
def abMinGo (f : Board → EInt → EInt → EInt) (b : Board) (actor : Player) :
    List (Int × Int) → EInt → EInt → EInt → EInt
  | [], acc, _, _ => acc
  | m :: rest, acc, alpha, beta =>
    let s := f (childBoard b m actor) alpha beta
    let acc' := min acc s
    let beta' := min beta s
    if beta' ≤ alpha then acc' else abMinGo f b actor rest acc' alpha beta'

/-- `OthelloCPU._minimax`: depth-bounded minimax with alpha-beta pruning;
a moveless actor passes, recursing at `depth - 1` with the flag flipped. -/
def minimax (pl : Player) : Nat → Board → EInt → EInt → Bool → EInt
  | 0, b, _, _, _ => EInt.ofInt (evalT pl b)
  | d + 1, b, alpha, beta, isMax =>
    if isGameOver b then EInt.ofInt (evalT pl b)
    else
      let actor := if isMax then pl else opponentOf pl
      let moves := getValidMoves b actor
      if moves.isEmpty then minimax pl d b alpha beta (!isMax)
      else if isMax then
        abMaxGo (fun b' a' b'' => minimax pl d b' a' b'' false) b actor moves ⊥ alpha beta
      else
        abMinGo (fun b' a' b'' => minimax pl d b' a' b'' true) b actor moves ⊤ alpha beta

/-- Modelled from the spec: the unpruned minimax reference of §4.3 / §8 over
the same move enumeration, same depth accounting and same evaluator, with
the alpha-beta cutoff removed (the repository has no such reference
implementation; the spec asks for differential comparison against it). -/
def npMinimax (pl : Player) : Nat → Board → Bool → EInt
  | 0, b, _ => EInt.ofInt (evalT pl b)
  | d + 1, b, isMax =>
    if isGameOver b then EInt.ofInt (evalT pl b)
    else
      let actor := if isMax then pl else opponentOf pl
      let moves := getValidMoves b actor
      if moves.isEmpty then npMinimax pl d b (!isMax)
      else if isMax then
        moves.foldl (fun a m => max a (npMinimax pl d (childBoard b m actor) false)) ⊥
      else
        moves.foldl (fun a m => min a (npMinimax pl d (childBoard b m actor) true)) ⊤

/-- The move-selection loop of `_get_minimax_move`: first strictly better
score wins, `best_score` starting at `float('-inf')`. -/
def minimaxMoveGo (pl : Player) (d : Nat) (b : Board) :
    List (Int × Int) → (Int × Int) → EInt → (Int × Int)
  | [], best, _ => best
  | m :: rest, best, bestScore =>
    let s := minimax pl d (childBoard b m pl) ⊥ ⊤ false
    if bestScore < s then minimaxMoveGo pl d b rest m s
    else minimaxMoveGo pl d b rest best bestScore

/-- `OthelloCPU._get_minimax_move` (depth `difficulty - 1`). -/
def getMinimaxMove (pl : Player) (difficulty : Nat) (b : Board)
    (moves : List (Int × Int)) : Int × Int :=
  minimaxMoveGo pl (difficulty - 1) b moves (moves.headD (0, 0)) ⊥

/-- Modelled from the spec: `_get_minimax_move` with the unpruned reference
search substituted for `_minimax`, identical tie-breaking. -/
def npMinimaxMoveGo (pl : Player) (d : Nat) (b : Board) :
    List (Int × Int) → (Int × Int) → EInt → (Int × Int)
  | [], best, _ => best
  | m :: rest, best, bestScore =>
    let s := npMinimax pl d (childBoard b m pl) false
    if bestScore < s then npMinimaxMoveGo pl d b rest m s
    else npMinimaxMoveGo pl d b rest best bestScore

/-- Modelled from the spec: the unpruned counterpart of `getMinimaxMove`. -/
def getMinimaxMoveNP (pl : Player) (difficulty : Nat) (b : Board)
    (moves : List (Int × Int)) : Int × Int :=
  npMinimaxMoveGo pl (difficulty - 1) b moves (moves.headD (0, 0)) ⊥

/-- The loop of `_get_greedy_move`, with its literal `best_score = -1`
starting value. -/
def greedyGo (pl : Player) (b : Board) :
    List (Int × Int) → (Int × Int) → Int → (Int × Int)
  | [], best, _ => best
  | m :: rest, best, bestScore =>
    let s := evalT pl (childBoard b m pl)
    if bestScore < s then greedyGo pl b rest m s
    else greedyGo pl b rest best bestScore

/-- `OthelloCPU._get_greedy_move`. -/
def getGreedyMove (pl : Player) (b : Board) (moves : List (Int × Int)) : Int × Int :=
  greedyGo pl b moves (moves.headD (0, 0)) (-1)

/-- `OthelloCPU`: the fields of `__init__` that the deterministic tiers use. -/
structure CPU where
  player : Player
  difficulty : Nat
deriving DecidableEq, Repr

/-- `OthelloCPU.get_move` restricted to the deterministic difficulty tiers:
the `difficulty == 1` branch delegates to `random.choice` and is outside
this model, so every theorem about `getMove` assumes `difficulty ≥ 2`. -/
def getMove (cpu : CPU) (b : Board) : Option (Int × Int) :=
  let moves := getValidMoves b cpu.player
  if moves.isEmpty then none
  else if cpu.difficulty = 2 then some (getGreedyMove cpu.player b moves)
  else some (getMinimaxMove cpu.player cpu.difficulty b moves)

/-- Modelled from the spec: `get_move` with the unpruned search in the
`difficulty >= 3` branch. -/
def getMoveNP (cpu : CPU) (b : Board) : Option (Int × Int) :=
  let moves := getValidMoves b cpu.player
  if moves.isEmpty then none
  else if cpu.difficulty = 2 then some (getGreedyMove cpu.player b moves)
  else some (getMinimaxMoveNP cpu.player cpu.difficulty b moves)

/-- A sequence of `make_move` calls against a board, arbitrary players and
coordinates, keeping the resulting state each time. -/
def applyMoves (b : Board) (ms : List (Int × Int × Player)) : Board :=
  ms.foldl (fun bd m => (makeMove bd m.1 m.2.1 m.2.2).2) b

/-- Every cell of the grid holds BLACK (1), WHITE (-1) or EMPTY (0). -/
def CellsOK (b : Board) : Prop := ∀ v ∈ b.cells, v = -1 ∨ v = 0 ∨ v = 1

/-- The number of pieces of one colour on the board (what `get_score`
counts for that colour). -/
def playerCount (b : Board) (pl : Player) : Nat := b.cells.count pl.value

/-- The number of occupied (non-empty) cells of the grid. -/
def occupiedCount (b : Board) : Nat := b.cells.length - b.cells.count 0

/-! ### Concrete boards used as counterexamples and witnesses -/

/-- A 4×4 position with Black to move: white corners at (0,0) and (0,3),
white pieces at (2,1) and (3,2), a black anchor at (3,1).  Black's legal
moves are (1,1) and (3,3); both children evaluate below -1, so the greedy
loop's `best_score = -1` start never updates and the first move wins. -/
def cexGreedy : Board :=
  ⟨4, [-1, 0, 0, -1,
        0, 0, 0, 0,
        0, -1, 0, 0,
        0, 1, -1, 0]⟩

/-- An 8×8 position: Black owns every cell of positional weight ≥ -2 except
(2,2), which is empty, White owns every -20 and -50 cell.  Black can still move
(e.g. (2,2) flipping (1,1) toward the (0,0) corner), yet the heuristic
value from Black's perspective is 1223 ≥ 1000. -/
def cexEval : Board :=
  ⟨8, [1, -1, 1, 1, 1, 1, -1, 1,
       -1, -1, 1, 1, 1, 1, -1, -1,
       1, 1, 0, 1, 1, 1, 1, 1,
       1, 1, 1, 1, 1, 1, 1, 1,
       1, 1, 1, 1, 1, 1, 1, 1,
       1, 1, 1, 1, 1, 1, 1, 1,
       -1, -1, 1, 1, 1, 1, -1, -1,
       1, -1, 1, 1, 1, 1, -1, 1]⟩

/-- A 10×10 position: Black at (0,0) and (8,8), White at (0,1), all else
empty.  Black can legally move at (0,2), so the board is not terminal, and
the evaluator must index the 8×8 positional table at row 8 — an
`IndexError` in the source. -/
def cexSize10 : Board :=
  ⟨10, (List.replicate 100 0).set 0 1 |>.set 1 (-1) |>.set 88 1⟩

/-- A 4×4 position (Black (0,0), White (0,1)) where Black has a legal move
at (0,2) but White has none: inside `_minimax` the White ply passes. -/
def cexPass : Board :=
  ⟨4, [1, -1, 0, 0,
       0, 0, 0, 0,
       0, 0, 0, 0,
       0, 0, 0, 0]⟩

/-- A terminal 4×4 position: the board is entirely black. -/
def cexAllBlack : Board := ⟨4, List.replicate 16 1⟩

end Othello

namespace Othello

/-! ### C9: legal moves of the fresh standard board -/

/-- C9: on the freshly initialized standard 8×8 board, Black's legal moves
(row-major, hence as a set) are exactly (2,3),(3,2),(4,5),(5,4), and
White's are exactly (2,4),(3,5),(4,2),(5,3). -/
theorem initial_board_valid_moves :
    getValidMoves (mkBoard 8) Player.BLACK = [(2, 3), (3, 2), (4, 5), (5, 4)] ∧
    getValidMoves (mkBoard 8) Player.WHITE = [(2, 4), (3, 5), (4, 2), (5, 3)] := by
  decide

/-! ### C5: illegal moves do not mutate the board -/

/-- C5: for any out-of-bounds target, occupied target, or move that flips
no line in any direction, `make_move` returns failure and the board is
unchanged. -/
theorem makeMove_invalid_is_noop (b : Board) (r c : Int) (pl : Player)
    (h : ¬ inBounds b.size r c ∨ b.get r c ≠ Player.EMPTY.value ∨
        ∀ d ∈ directions, canFlipInDirection b r c d.1 d.2 pl = false) :
    makeMove b r c pl = (false, b) := by
  have hv : isValidMove b r c pl = false := by
    unfold isValidMove
    rcases h with h | h | h
    · simp [h]
    · by_cases hb : inBounds b.size r c
      · simp [hb, h]
      · simp [hb]
    · by_cases hb : inBounds b.size r c
      · by_cases he : b.get r c = Player.EMPTY.value
        · have hany : (directions.any fun d => canFlipInDirection b r c d.1 d.2 pl) = false := by
            rw [List.any_eq_false]
            intro x hx
            simp [h x hx]
          simp [hb, he, hany]
        · simp [hb, he]
      · simp [hb]
  unfold makeMove
  simp [hv]

/-- Witness for C5 at a concrete input: (3,3) of the fresh 8×8 board is
occupied, and `make_move` there fails leaving the board unchanged. -/
theorem makeMove_invalid_is_noop_witness :
    (mkBoard 8).get 3 3 ≠ Player.EMPTY.value ∧
    makeMove (mkBoard 8) 3 3 Player.BLACK = (false, mkBoard 8) :=
  ⟨by decide, makeMove_invalid_is_noop _ _ _ _ (Or.inr (Or.inl (by decide)))⟩

/-! ### C2: the greedy tier can return a strictly dominated move -/

/-- C2 (failing input): on `cexGreedy` with Black to move at difficulty 2,
`get_move` returns (1,1) although the legal alternative (3,3) scores
strictly higher under the same evaluator at that ply — the greedy loop's
`best_score = -1` start masks every score below -1. -/
theorem greedy_returns_dominated_move :
    getMove ⟨Player.BLACK, 2⟩ cexGreedy = some (1, 1) ∧
    (3, 3) ∈ getValidMoves cexGreedy Player.BLACK ∧
    evalT Player.BLACK (childBoard cexGreedy (1, 1) Player.BLACK) <
      evalT Player.BLACK (childBoard cexGreedy (3, 3) Player.BLACK) := by
  decide

/-! ### C3: totality of the evaluator and the 8×8 table -/

/-- C3 (counterexample to sizes beyond 8): a well-formed, non-terminal
10×10 board on which `_evaluate_board` fails (indexes the positional table
out of bounds). -/
theorem evaluate_fails_on_size10 :
    cexSize10.size = 10 ∧ WF cexSize10 ∧ isGameOver cexSize10 = false ∧
    evaluateBoard? Player.BLACK cexSize10 = none := by
  decide

/-! ### C4: the terminal constant does not dominate the heuristic -/

/-- C4 (counterexample): a well-formed, non-terminal 8×8 board whose
heuristic score from Black's perspective is 1223, which is not strictly
less than the terminal constant 1000. -/
theorem heuristic_reaches_terminal_range :
    cexEval.size = 8 ∧ WF cexEval ∧ isGameOver cexEval = false ∧
    evaluateBoard? Player.BLACK cexEval = some 1223 ∧ ¬ ((1223 : Int) < 1000) := by
  decide

/-! ### C7: a pass inside `_minimax` costs exactly one ply -/

/-- C7: on a non-terminal board at positive depth, when the actor to move
has no legal moves, `_minimax` recurses on the unchanged board at
`depth - 1` with the maximizing flag flipped. -/
theorem minimax_pass_consumes_one_ply (pl : Player) (d : Nat) (b : Board)
    (alpha beta : EInt) (isMax : Bool)
    (hnt : isGameOver b = false)
    (hmoves : (getValidMoves b (if isMax then pl else opponentOf pl)).isEmpty = true) :
    minimax pl (d + 1) b alpha beta isMax = minimax pl d b alpha beta (!isMax) := by
  simp [minimax, hnt, hmoves]

/-- Witness for C7: on `cexPass` White (the minimizing actor for a Black
CPU) has no legal moves, and the depth-1 call equals the depth-0 call with
the flag flipped. -/
theorem minimax_pass_consumes_one_ply_witness :
    isGameOver cexPass = false ∧
    (getValidMoves cexPass (if (false : Bool) then Player.BLACK else opponentOf Player.BLACK)).isEmpty = true ∧
    minimax Player.BLACK 1 cexPass ⊥ ⊤ false = minimax Player.BLACK 0 cexPass ⊥ ⊤ true :=
  ⟨by decide, by decide,
    minimax_pass_consumes_one_ply Player.BLACK 0 cexPass ⊥ ⊤ false (by decide) (by decide)⟩

/-! ### C8: antisymmetry of the terminal evaluation -/

/-- C8: on any terminal board the evaluator is antisymmetric between the
two perspectives, `evaluate(b, BLACK) = -evaluate(b, WHITE)`, with value
1000 exactly for a win, -1000 exactly for a loss and 0 exactly for a tie. -/
theorem evaluate_terminal_antisymmetric (b : Board) (h : isGameOver b = true) :
    ∃ v : Int, evaluateBoard? Player.BLACK b = some v ∧
      evaluateBoard? Player.WHITE b = some (-v) ∧
      ((getScore b).2 < (getScore b).1 → v = 1000) ∧
      ((getScore b).1 < (getScore b).2 → v = -1000) ∧
      ((getScore b).1 = (getScore b).2 → v = 0) := by
  have e1 : evaluateBoard? Player.BLACK b =
      some (if (getScore b).1 > (getScore b).2 then 1000
            else if (getScore b).1 < (getScore b).2 then -1000 else 0) := by
    simp [evaluateBoard?, h]
  have e2 : evaluateBoard? Player.WHITE b =
      some (if (getScore b).2 > (getScore b).1 then 1000
            else if (getScore b).2 < (getScore b).1 then -1000 else 0) := by
    simp [evaluateBoard?, h]
  rcases lt_trichotomy (getScore b).1 (getScore b).2 with hlt | heq | hgt
  · refine ⟨-1000, ?_, ?_, ?_, ?_, ?_⟩
    · rw [e1]; simp [hlt, asymm hlt]
    · rw [e2]; norm_num [hlt, gt_iff_lt]
    · intro hh; exact absurd hh (asymm hlt)
    · intro _; rfl
    · intro hh; exact absurd hh (ne_of_lt hlt)
  · refine ⟨0, ?_, ?_, ?_, ?_, ?_⟩
    · rw [e1]; simp [heq]
    · rw [e2]; simp [heq]
    · intro hh; exact absurd hh (by rw [heq]; exact lt_irrefl _)
    · intro hh; exact absurd hh (by rw [heq]; exact lt_irrefl _)
    · intro _; rfl
  · refine ⟨1000, ?_, ?_, ?_, ?_, ?_⟩
    · rw [e1]; simp [hgt, gt_iff_lt]
    · rw [e2]; simp [hgt, asymm hgt]
    · intro _; rfl
    · intro hh; exact absurd hh (asymm hgt)
    · intro hh; exact absurd hh (ne_of_gt hgt)

/-- Witness for C8: the all-black 4×4 board is terminal and Black wins. -/
theorem evaluate_terminal_antisymmetric_witness :
    isGameOver cexAllBlack = true ∧
    ∃ v : Int, evaluateBoard? Player.BLACK cexAllBlack = some v ∧
      evaluateBoard? Player.WHITE cexAllBlack = some (-v) ∧
      ((getScore cexAllBlack).2 < (getScore cexAllBlack).1 → v = 1000) ∧
      ((getScore cexAllBlack).1 < (getScore cexAllBlack).2 → v = -1000) ∧
      ((getScore cexAllBlack).1 = (getScore cexAllBlack).2 → v = 0) :=
  ⟨by decide, evaluate_terminal_antisymmetric cexAllBlack (by decide)⟩

/-! ### C3 (amended): totality of the evaluator for sizes up to 8 -/

theorem positionValueAt_isSome {row col : Nat} (hr : row < 8) (hc : col < 8) :
    (positionValueAt row col).isSome := by
  interval_cases row <;> interval_cases col <;> decide

theorem posCell?_isSome (pl : Player) (b : Board) {row col : Nat}
    (hr : row < 8) (hc : col < 8) : (posCell? pl b row col).isSome := by
  unfold posCell?
  split
  · exact positionValueAt_isSome hr hc
  · split
    · simpa using positionValueAt_isSome hr hc
    · simp

theorem posFold_isSome (pl : Player) (b : Board) (l : List (Nat × Nat)) :
    ∀ (s : Int), (∀ rc ∈ l, (posCell? pl b rc.1 rc.2).isSome) →
      (l.foldl (fun acc rc => acc.bind fun s => (posCell? pl b rc.1 rc.2).map fun t => s + t)
        (some s)).isSome := by
  induction l with
  | nil => intro s _; simp
  | cons rc l ih =>
    intro s h
    obtain ⟨u, hu⟩ := Option.isSome_iff_exists.mp (h rc (by simp))
    simpa [hu] using ih (s + u) (fun x hx => h x (by simp [hx]))

theorem positionScore?_isSome (pl : Player) (b : Board) (h : b.size ≤ 8) :
    (positionScore? pl b).isSome := by
  unfold positionScore?
  apply posFold_isSome
  intro rc hrc
  have hb : rc.1 < b.size ∧ rc.2 < b.size := by
    obtain ⟨r, c⟩ := rc
    simp only [allPositions, List.mem_flatMap, List.mem_map, List.mem_range] at hrc
    obtain ⟨a, ha, c', hc', he⟩ := hrc
    cases he
    exact ⟨ha, hc'⟩
  exact posCell?_isSome pl b (lt_of_lt_of_le hb.1 h) (lt_of_lt_of_le hb.2 h)

/-- C3 (amended): the evaluator is total (returns a score, never fails) on
every board of size at most 8; by `evaluate_fails_on_size10` this is sharp,
so among supported sizes it holds exactly for N ∈ {4, 6, 8}. -/
theorem evaluateBoard_total_of_size_le_eight (pl : Player) (b : Board)
    (h : b.size ≤ 8) : (evaluateBoard? pl b).isSome := by
  unfold evaluateBoard?
  split
  · simp
  · simpa using positionScore?_isSome pl b h

/-- Witness for the amended C3 on the fresh 4×4 board. -/
theorem evaluateBoard_total_witness :
    (mkBoard 4).size ≤ 8 ∧ (evaluateBoard? Player.BLACK (mkBoard 4)).isSome :=
  ⟨by decide, evaluateBoard_total_of_size_le_eight Player.BLACK (mkBoard 4) (by decide)⟩

/-! ### C10: every reachable cell holds one of the three cell values -/

theorem Player.value_cases (pl : Player) :
    pl.value = -1 ∨ pl.value = 0 ∨ pl.value = 1 := by
  cases pl <;> simp [Player.value]

theorem CellsOK.set {b : Board} (h : CellsOK b) {r c : Int} {x : Int}
    (hx : x = -1 ∨ x = 0 ∨ x = 1) : CellsOK (b.set r c x) := by
  intro v hv
  rcases List.mem_or_eq_of_mem_set hv with h' | h'
  · exact h v h'
  · rw [h']; exact hx

theorem cellsOK_flipWalk (pl : Player) :
    ∀ (l : List (Int × Int)) (b : Board), CellsOK b → CellsOK (flipWalk pl b l)
  | [], _, h => h
  | p :: rest, b, h => by
    unfold flipWalk
    split
    · exact h
    · exact cellsOK_flipWalk pl rest _ (h.set (Player.value_cases pl))

theorem cellsOK_makeMove (b : Board) (r c : Int) (pl : Player) (h : CellsOK b) :
    CellsOK (makeMove b r c pl).2 := by
  unfold makeMove
  split
  · exact h
  · have hfold : ∀ (ds : List (Int × Int)) (bd : Board), CellsOK bd →
        CellsOK (ds.foldl (flipStep r c pl) bd) := by
      intro ds
      induction ds with
      | nil => exact fun bd h => h
      | cons d ds ih =>
        intro bd hbd
        apply ih
        unfold flipStep
        split
        · exact cellsOK_flipWalk pl _ _ hbd
        · exact hbd
    dsimp only
    exact hfold directions (b.set r c pl.value) (h.set (Player.value_cases pl))

theorem cellsOK_mkBoard (n : Nat) : CellsOK (mkBoard n) := by
  have h0 : CellsOK ⟨n, List.replicate (n * n) 0⟩ := by
    intro v hv
    rcases List.mem_replicate.mp hv with ⟨_, rfl⟩
    exact Or.inr (Or.inl rfl)
  unfold mkBoard setupInitialPosition
  dsimp only
  exact (((h0.set (Player.value_cases Player.WHITE)).set
      (Player.value_cases Player.BLACK)).set
      (Player.value_cases Player.BLACK)).set
      (Player.value_cases Player.WHITE)

/-- C10: every cell of any board reached from a fresh `OthelloBoard(N)` by
any sequence of `make_move` calls (any players, any coordinates) holds one
of exactly the three values 1 (BLACK), -1 (WHITE) or 0 (EMPTY). -/
theorem reachable_cells_in_range (n : Nat) (ms : List (Int × Int × Player)) :
    ∀ v ∈ (applyMoves (mkBoard n) ms).cells, v = -1 ∨ v = 0 ∨ v = 1 := by
  have hfold : ∀ (ms : List (Int × Int × Player)) (b : Board), CellsOK b →
      CellsOK (applyMoves b ms) := by
    intro ms
    induction ms with
    | nil => exact fun b h => h
    | cons m ms ih =>
      intro b hb
      exact ih _ (cellsOK_makeMove b m.1 m.2.1 m.2.2 hb)
  exact hfold ms _ (cellsOK_mkBoard n)

/-- Witness for C10: a concrete cell value of a concrete reachable board. -/
theorem reachable_cells_in_range_witness :
    (1 : Int) ∈ (applyMoves (mkBoard 4) [(0, 1, Player.BLACK)]).cells ∧
      ((1 : Int) = -1 ∨ (1 : Int) = 0 ∨ (1 : Int) = 1) :=
  ⟨by decide, reachable_cells_in_range 4 [(0, 1, Player.BLACK)] 1 (by decide)⟩

/-! ### C4 (amended): the heuristic is bounded within ±2000 -/

/-- No more legal moves than cells: the move list is built from a row-major
scan keeping a subset of the `size * size` cells. -/
theorem getValidMoves_length_le (b : Board) (pl : Player) :
    (getValidMoves b pl).length ≤ b.size * b.size := by
  unfold getValidMoves
  rw [List.length_flatMap]
  calc (List.map (List.length ∘ fun rr : Nat =>
          (List.range b.size).filterMap fun cc : Nat =>
            if isValidMove b (rr : Int) (cc : Int) pl then some ((rr : Int), (cc : Int)) else none)
          (List.range b.size)).sum
      ≤ (List.map (fun _ => b.size) (List.range b.size)).sum := by
        apply List.sum_le_sum
        intro i _
        simpa using le_trans (List.length_filterMap_le _ _) (le_of_eq (List.length_range _))
    _ = b.size * b.size := by
        simp [List.map_const, List.sum_replicate, Nat.smul_one_eq_cast]

/-- The absolute value of one cell's positional contribution is at most the
absolute value of the table entry there. -/
theorem posCell?_abs_le (pl : Player) (b : Board) {row col : Nat} {u : Int}
    (h : posCell? pl b row col = some u) :
    |u| ≤ |(positionValueAt row col).getD 0| := by
  unfold posCell? at h
  split at h
  · rw [h]; simp
  · split at h
    · obtain ⟨w, hw, hwu⟩ := Option.map_eq_some'.mp h
      rw [hw, ← hwu]
      simp
    · cases h
      simp [abs_nonneg]

/-- Folding `none` through the position accumulation stays `none`. -/
theorem posFold_none (pl : Player) (b : Board) (l : List (Nat × Nat)) :
    l.foldl (fun acc rc => acc.bind fun s => (posCell? pl b rc.1 rc.2).map fun t => s + t)
      none = none := by
  induction l with
  | nil => rfl
  | cons rc l ih => simpa using ih

/-- The positional fold is bounded by the sum of absolute table entries. -/
theorem posFold_abs_le (pl : Player) (b : Board) (l : List (Nat × Nat)) :
    ∀ (s t : Int),
      l.foldl (fun acc rc => acc.bind fun s => (posCell? pl b rc.1 rc.2).map fun t => s + t)
        (some s) = some t →
      |t| ≤ |s| + (l.map fun rc => |(positionValueAt rc.1 rc.2).getD 0|).sum := by
  induction l with
  | nil =>
    intro s t h
    cases h
    simp
  | cons rc l ih =>
    intro s t h
    rw [List.foldl_cons] at h
    rcases hc : posCell? pl b rc.1 rc.2 with _ | u
    · rw [show ((some s).bind fun s => (posCell? pl b rc.1 rc.2).map fun t => s + t) = none by
        simp [hc]] at h
      rw [posFold_none] at h
      cases h
    · rw [show ((some s).bind fun s => (posCell? pl b rc.1 rc.2).map fun t => s + t)
          = some (s + u) by simp [hc]] at h
      have hu := posCell?_abs_le pl b hc
      have := ih (s + u) t h
      have habs : |s + u| ≤ |s| + |u| := abs_add s u
      simp only [List.map_cons, List.sum_cons]
      calc |t| ≤ |s + u| + (l.map fun rc => |(positionValueAt rc.1 rc.2).getD 0|).sum := this
        _ ≤ |s| + |u| + (l.map fun rc => |(positionValueAt rc.1 rc.2).getD 0|).sum := by
            linarith
        _ ≤ |s| + (|(positionValueAt rc.1 rc.2).getD 0| +
              (l.map fun rc => |(positionValueAt rc.1 rc.2).getD 0|).sum) := by
            linarith

/-- On an 8×8 board the positional term is bounded by 928, the sum of the
absolute values of the whole table. -/
theorem positionScore?_abs_le (pl : Player) (b : Board) (h8 : b.size = 8) {ps : Int}
    (h : positionScore? pl b = some ps) : |ps| ≤ 928 := by
  unfold positionScore? at h
  rw [h8] at h
  have hb := posFold_abs_le pl b (allPositions 8) 0 ps h
  have hsum : ((allPositions 8).map fun rc => |(positionValueAt rc.1 rc.2).getD 0|).sum
      = (928 : Int) := by decide
  rw [hsum] at hb
  simpa using hb

/-- C4 (amended): on any well-formed, non-terminal 8×8 board the heuristic
score is strictly within ±2000 (the sharp bound 1000 claimed by the spec is
beaten by `heuristic_reaches_terminal_range`; the three terms are bounded by
640, 928 and 320 respectively, so 2000 dominates). -/
theorem heuristic_strictly_within_2000 (pl : Player) (b : Board)
    (h8 : b.size = 8) (hwf : WF b) (hnt : isGameOver b = false) :
    ∃ v : Int, evaluateBoard? pl b = some v ∧ -2000 < v ∧ v < 2000 := by
  obtain ⟨v, hv⟩ := Option.isSome_iff_exists.mp
    (evaluateBoard_total_of_size_le_eight pl b (le_of_eq h8))
  refine ⟨v, hv, ?_⟩
  unfold evaluateBoard? at hv
  rw [if_neg (by simp [hnt])] at hv
  obtain ⟨ps, hps, hf⟩ := Option.map_eq_some'.mp hv
  have hlen : b.cells.length = 64 := by rw [hwf, h8]
  have hbs : (0 : Int) ≤ (getScore b).1 ∧ (getScore b).1 ≤ 64 := by
    unfold getScore
    constructor
    · dsimp only
      exact Int.natCast_nonneg _
    · dsimp only
      exact_mod_cast hlen ▸ List.count_le_length Player.BLACK.value b.cells
  have hws : (0 : Int) ≤ (getScore b).2 ∧ (getScore b).2 ≤ 64 := by
    unfold getScore
    constructor
    · dsimp only
      exact Int.natCast_nonneg _
    · dsimp only
      exact_mod_cast hlen ▸ List.count_le_length Player.WHITE.value b.cells
  have hsign : (if pl = Player.BLACK then (1 : Int) else -1) = 1 ∨
      (if pl = Player.BLACK then (1 : Int) else -1) = -1 := by
    split
    · exact Or.inl rfl
    · exact Or.inr rfl
  have hcm : ((getValidMoves b pl).length : Int) ≤ 64 := by
    exact_mod_cast (h8 ▸ getValidMoves_length_le b pl : (getValidMoves b pl).length ≤ 8 * 8)
  have hom : ((getValidMoves b (opponentOf pl)).length : Int) ≤ 64 := by
    exact_mod_cast (h8 ▸ getValidMoves_length_le b (opponentOf pl) :
      (getValidMoves b (opponentOf pl)).length ≤ 8 * 8)
  have hcm0 : (0 : Int) ≤ ((getValidMoves b pl).length : Int) := by positivity
  have hom0 : (0 : Int) ≤ ((getValidMoves b (opponentOf pl)).length : Int) := by positivity
  have hps928 := positionScore?_abs_le pl b h8 hps
  have hps' : -928 ≤ ps ∧ ps ≤ 928 := abs_le.mp hps928
  rcases hbs with ⟨hbs0, hbs1⟩
  rcases hws with ⟨hws0, hws1⟩
  rcases hps' with ⟨hpsl, hpsr⟩
  rw [← hf]
  rcases hsign with hs | hs <;> rw [hs] <;> constructor <;> nlinarith

/-- Witness for the amended C4 on the fresh standard board. -/
theorem heuristic_strictly_within_2000_witness :
    (mkBoard 8).size = 8 ∧ WF (mkBoard 8) ∧ isGameOver (mkBoard 8) = false ∧
    ∃ v : Int, evaluateBoard? Player.BLACK (mkBoard 8) = some v ∧ -2000 < v ∧ v < 2000 :=
  ⟨by decide, by decide, by decide,
    heuristic_strictly_within_2000 Player.BLACK (mkBoard 8) (by decide) (by decide) (by decide)⟩

/-! ### C6: board surgery lemmas (indexing, get, set, counts) -/

theorem size_set (b : Board) (r c v : Int) : (b.set r c v).size = b.size := rfl

theorem length_set (b : Board) (r c v : Int) :
    (b.set r c v).cells.length = b.cells.length := List.length_set _ _ _

theorem idx_lt_of_inBounds {n : Nat} {r c : Int} (h : inBounds n r c) :
    r.toNat * n + c.toNat < n * n := by
  obtain ⟨hr0, hr1, hc0, hc1⟩ := h
  have hr : r.toNat < n := by omega
  have hc : c.toNat < n := by omega
  calc r.toNat * n + c.toNat < r.toNat * n + n := by omega
    _ = (r.toNat + 1) * n := by ring
    _ ≤ n * n := Nat.mul_le_mul_right n (by omega)

theorem idx_inj {n : Nat} {r c x y : Int} (h1 : inBounds n r c) (h2 : inBounds n x y)
    (he : x.toNat * n + y.toNat = r.toNat * n + c.toNat) : x = r ∧ y = c := by
  obtain ⟨hr0, hr1, hc0, hc1⟩ := h1
  obtain ⟨hx0, hx1, hy0, hy1⟩ := h2
  have hn : 0 < n := by omega
  have hyn : y.toNat < n := by omega
  have hcn : c.toNat < n := by omega
  have d1 : (y.toNat + x.toNat * n) / n = x.toNat := by
    rw [Nat.add_mul_div_right _ _ hn, Nat.div_eq_of_lt hyn]
    omega
  have d2 : (c.toNat + r.toNat * n) / n = r.toNat := by
    rw [Nat.add_mul_div_right _ _ hn, Nat.div_eq_of_lt hcn]
    omega
  have m1 : (y.toNat + x.toNat * n) % n = y.toNat := by
    simp [Nat.add_mul_mod_self_right, Nat.mod_eq_of_lt hyn]
  have m2 : (c.toNat + r.toNat * n) % n = c.toNat := by
    simp [Nat.add_mul_mod_self_right, Nat.mod_eq_of_lt hcn]
  have he' : y.toNat + x.toNat * n = c.toNat + r.toNat * n := by omega
  rw [he'] at d1 m1
  have hxr : x.toNat = r.toNat := by rw [← d1, d2]
  have hyc : y.toNat = c.toNat := by rw [← m1, m2]
  constructor
  · omega
  · omega

theorem get_set_self {b : Board} {r c : Int} (hwf : WF b) (hin : inBounds b.size r c)
    (v : Int) : (b.set r c v).get r c = v := by
  have hidx : r.toNat * b.size + c.toNat < b.cells.length := by
    rw [hwf]; exact idx_lt_of_inBounds hin
  unfold Board.get Board.set
  dsimp only
  rw [if_pos hin, List.getD_eq_getElem?_getD, List.getElem?_set_self hidx]
  rfl

theorem get_set_ne {b : Board} {r c x y : Int} (hin : inBounds b.size r c) (v : Int)
    (hne : ¬ (x = r ∧ y = c)) : (b.set r c v).get x y = b.get x y := by
  unfold Board.get Board.set
  dsimp only
  by_cases hxy : inBounds b.size x y
  · rw [if_pos hxy, if_pos hxy, List.getD_eq_getElem?_getD, List.getD_eq_getElem?_getD,
      List.getElem?_set_ne]
    intro heq
    exact hne (idx_inj hin hxy heq.symm)
  · rw [if_neg hxy, if_neg hxy]

theorem count_set_plus_one {l : List Int} {i : Nat} (hi : i < l.length) {v : Int}
    (hne : l[i] ≠ v) : (l.set i v).count v = l.count v + 1 := by
  rw [List.count_set _ _ _ _ hi]
  simp [hne]

theorem count_set_untouched {l : List Int} {i : Nat} (hi : i < l.length) {v w : Int}
    (h1 : l[i] ≠ w) (h2 : v ≠ w) : (l.set i v).count w = l.count w := by
  rw [List.count_set _ _ _ _ hi]
  simp [h1, h2]

theorem count_set_ge (l : List Int) (i : Nat) (v : Int) :
    l.count v ≤ (l.set i v).count v := by
  by_cases hi : i < l.length
  · rw [List.count_set _ _ _ _ hi]
    by_cases he : l[i] = v
    · have hmem : 0 < l.count v := List.count_pos_iff.mpr (he ▸ List.getElem_mem hi)
      simp [he]
      omega
    · simp [he]
  · rw [List.set_eq_of_length_le (le_of_not_lt hi)]

/-- The value at an in-bounds coordinate, read through `get`, is the indexed
cell of a well-formed grid. -/
theorem get_eq_getElem {b : Board} {r c : Int} (hin : inBounds b.size r c)
    (hidx : r.toNat * b.size + c.toNat < b.cells.length) :
    b.get r c = b.cells[r.toNat * b.size + c.toNat] := by
  unfold Board.get
  rw [if_pos hin, List.getD_eq_getElem?_getD, List.getElem?_eq_getElem hidx]
  rfl

/-! ### C6: ray and flip-walk lemmas -/

theorem ray_mem_inBounds {n : Nat} {r c dr dc : Int} {p : Int × Int}
    (hp : p ∈ ray n r c dr dc) : inBounds n p.1 p.2 := by
  unfold ray at hp
  have h2 := @List.mem_takeWhile_imp (Int × Int)
    (fun q => decide (inBounds n q.1 q.2)) _ p hp
  simpa using h2

theorem ray_mem_shape {n : Nat} {r c dr dc : Int} {p : Int × Int}
    (hp : p ∈ ray n r c dr dc) :
    ∃ k : Nat, p = (r + ((k : Int) + 1) * dr, c + ((k : Int) + 1) * dc) := by
  have hm : p ∈ (List.range n).map
      fun k => (r + ((k + 1 : Nat) : Int) * dr, c + ((k + 1 : Nat) : Int) * dc) :=
    (List.takeWhile_sublist _).mem hp
  obtain ⟨k, _, he⟩ := List.mem_map.mp hm
  refine ⟨k, ?_⟩
  rw [← he]
  push_cast
  rfl

theorem ray_not_origin {n : Nat} {r c dr dc : Int} (hd : dr ≠ 0 ∨ dc ≠ 0)
    {p : Int × Int} (hp : p ∈ ray n r c dr dc) : ¬ (p.1 = r ∧ p.2 = c) := by
  obtain ⟨k, rfl⟩ := ray_mem_shape hp
  rintro ⟨h1, h2⟩
  dsimp only at h1 h2
  have hk : ((k : Int) + 1) ≠ 0 := by positivity
  rcases hd with hd | hd
  · exact hd (by
      have : ((k : Int) + 1) * dr = 0 := by linarith
      rcases mul_eq_zero.mp this with h | h
      · exact absurd h hk
      · exact h)
  · exact hd (by
      have : ((k : Int) + 1) * dc = 0 := by linarith
      rcases mul_eq_zero.mp this with h | h
      · exact absurd h hk
      · exact h)

theorem ray_nodup {n : Nat} {r c dr dc : Int} (hd : dr ≠ 0 ∨ dc ≠ 0) :
    (ray n r c dr dc).Nodup := by
  apply List.Sublist.nodup (List.takeWhile_sublist _)
  apply List.Nodup.map _ (List.nodup_range n)
  intro k1 k2 he
  have h1 := congrArg Prod.fst he
  have h2 := congrArg Prod.snd he
  dsimp only at h1 h2
  rcases hd with hdr | hdc
  · have hmul : ((k1 : Int) + 1) * dr = ((k2 : Int) + 1) * dr := by
      push_cast at h1
      linarith
    have := mul_right_cancel₀ hdr hmul
    exact_mod_cast (by omega : (k1 : Int) = k2 → k1 = k2) (by linarith)
  · have hmul : ((k1 : Int) + 1) * dc = ((k2 : Int) + 1) * dc := by
      push_cast at h2
      linarith
    have := mul_right_cancel₀ hdc hmul
    exact_mod_cast (by omega : (k1 : Int) = k2 → k1 = k2) (by linarith)

theorem canFlipScan_congr {b1 b2 : Board} (pl : Player) :
    ∀ (l : List (Int × Int)) (found : Bool),
      (∀ p ∈ l, b1.get p.1 p.2 = b2.get p.1 p.2) →
      canFlipScan b1 pl l found = canFlipScan b2 pl l found := by
  intro l
  induction l with
  | nil => intro found _; rfl
  | cons p rest ih =>
    intro found h
    have hp := h p (by simp)
    unfold canFlipScan
    rw [hp]
    split
    · rfl
    · split
      · rfl
      · exact ih true (fun q hq => h q (by simp [hq]))

theorem canFlipScan_empty (b : Board) :
    ∀ (l : List (Int × Int)) (found : Bool),
      canFlipScan b Player.EMPTY l found = false := by
  intro l
  induction l with
  | nil => intro _; rfl
  | cons p rest ih =>
    intro found
    unfold canFlipScan
    split
    · rfl
    · exact ih true

theorem flipWalk_size (pl : Player) :
    ∀ (l : List (Int × Int)) (b : Board), (flipWalk pl b l).size = b.size := by
  intro l
  induction l with
  | nil => intro b; rfl
  | cons p rest ih =>
    intro b
    unfold flipWalk
    split
    · rfl
    · rw [ih]
      rfl

theorem flipWalk_length (pl : Player) :
    ∀ (l : List (Int × Int)) (b : Board),
      (flipWalk pl b l).cells.length = b.cells.length := by
  intro l
  induction l with
  | nil => intro b; rfl
  | cons p rest ih =>
    intro b
    unfold flipWalk
    split
    · rfl
    · rw [ih]
      exact List.length_set _ _ _

/-- The flip walk over a list of distinct in-bounds cells passing the
`can_flip` scan: the number of empty cells is unchanged (only opponent
cells are overwritten), the mover's count never decreases, and it grows by
at least one when the scan started with `found_opponent = False`. -/
theorem flipWalk_counts (pl : Player) (hpl : pl.value ≠ 0) :
    ∀ (l : List (Int × Int)) (b : Board) (found : Bool), WF b →
      (∀ p ∈ l, inBounds b.size p.1 p.2) → l.Nodup →
      canFlipScan b pl l found = true →
      (flipWalk pl b l).cells.count 0 = b.cells.count 0 ∧
      b.cells.count pl.value ≤ (flipWalk pl b l).cells.count pl.value ∧
      (found = false →
        b.cells.count pl.value + 1 ≤ (flipWalk pl b l).cells.count pl.value) := by
  intro l
  induction l with
  | nil =>
    intro b found _ _ _ hscan
    simp [canFlipScan] at hscan
  | cons p rest ih =>
    intro b found hwf hin hnd hscan
    have hinp := hin p (by simp)
    have hidx : p.1.toNat * b.size + p.2.toNat < b.cells.length := by
      rw [hwf]; exact idx_lt_of_inBounds hinp
    have hgetp : b.get p.1 p.2 = b.cells[p.1.toNat * b.size + p.2.toNat] :=
      get_eq_getElem hinp hidx
    unfold canFlipScan at hscan
    unfold flipWalk
    by_cases h0 : b.get p.1 p.2 = Player.EMPTY.value
    · rw [if_pos h0] at hscan
      cases hscan
    · rw [if_neg h0] at hscan
      by_cases hq : b.get p.1 p.2 = pl.value
      · rw [if_pos hq] at hscan ⊢
        refine ⟨rfl, le_refl _, ?_⟩
        intro hfound
        rw [hfound] at hscan
        cases hscan
      · rw [if_neg hq] at hscan ⊢
        have hcell0 : b.cells[p.1.toNat * b.size + p.2.toNat] ≠ 0 := by
          rw [← hgetp]
          simpa [Player.value] using h0
        have hcellp : b.cells[p.1.toNat * b.size + p.2.toNat] ≠ pl.value := by
          rw [← hgetp]; exact hq
        have hc0 : (b.set p.1 p.2 pl.value).cells.count 0 = b.cells.count 0 :=
          count_set_untouched hidx hcell0 hpl
        have hcp : (b.set p.1 p.2 pl.value).cells.count pl.value
            = b.cells.count pl.value + 1 :=
          count_set_plus_one hidx hcellp
        have hwf' : WF (b.set p.1 p.2 pl.value) := by
          unfold WF
          rw [length_set, size_set]
          exact hwf
        have hin' : ∀ q ∈ rest, inBounds (b.set p.1 p.2 pl.value).size q.1 q.2 := by
          intro q hq'
          rw [size_set]
          exact hin q (by simp [hq'])
        have hpnotin : p ∉ rest := (List.nodup_cons.mp hnd).1
        have hscan' : canFlipScan (b.set p.1 p.2 pl.value) pl rest true = true := by
          rw [canFlipScan_congr pl rest true]
          · exact hscan
          · intro q hq'
            apply get_set_ne hinp
            intro ⟨he1, he2⟩
            exact hpnotin (by
              have : q = p := Prod.ext he1 he2
              rw [← this]; exact hq')
        obtain ⟨ih0, ihp, _⟩ := ih (b.set p.1 p.2 pl.value) true hwf' hin'
          (List.nodup_cons.mp hnd).2 hscan'
        refine ⟨by rw [ih0, hc0], ?_, ?_⟩
        · calc b.cells.count pl.value ≤ b.cells.count pl.value + 1 := by omega
            _ = (b.set p.1 p.2 pl.value).cells.count pl.value := hcp.symm
            _ ≤ _ := ihp
        · intro _
          calc b.cells.count pl.value + 1
              = (b.set p.1 p.2 pl.value).cells.count pl.value := hcp.symm
            _ ≤ _ := ihp

/-! ### C6: direction fold and the main count theorem -/

theorem dirs_nonzero : ∀ d ∈ directions, d.1 ≠ 0 ∨ d.2 ≠ 0 := by decide

/-- One flipping direction with a positive `can_flip` check: empty count
preserved, mover count strictly up, well-formedness and size preserved. -/
theorem flipPieces_counts {bd : Board} {r c : Int} {d : Int × Int} {pl : Player}
    (hpl : pl.value ≠ 0) (hwf : WF bd) (hd : d.1 ≠ 0 ∨ d.2 ≠ 0)
    (hcf : canFlipInDirection bd r c d.1 d.2 pl = true) :
    WF (flipPiecesInDirection bd r c d.1 d.2 pl) ∧
    (flipPiecesInDirection bd r c d.1 d.2 pl).size = bd.size ∧
    (flipPiecesInDirection bd r c d.1 d.2 pl).cells.count 0 = bd.cells.count 0 ∧
    bd.cells.count pl.value + 1 ≤
      (flipPiecesInDirection bd r c d.1 d.2 pl).cells.count pl.value := by
  have h := flipWalk_counts pl hpl (ray bd.size r c d.1 d.2) bd false hwf
    (fun p hp => ray_mem_inBounds hp) (ray_nodup hd) hcf
  refine ⟨?_, ?_, h.1, h.2.2 rfl⟩
  · unfold WF flipPiecesInDirection
    rw [flipWalk_length, flipWalk_size]
    exact hwf
  · exact flipWalk_size pl _ bd

/-- The direction fold of `make_move` preserves well-formedness, size and
empty count, and never decreases the mover's count. -/
theorem foldDirs_counts (r c : Int) (pl : Player) (hpl : pl.value ≠ 0) :
    ∀ (ds : List (Int × Int)) (bd : Board), (∀ d ∈ ds, d.1 ≠ 0 ∨ d.2 ≠ 0) → WF bd →
      WF (ds.foldl (flipStep r c pl) bd) ∧
      (ds.foldl (flipStep r c pl) bd).size = bd.size ∧
      (ds.foldl (flipStep r c pl) bd).cells.count 0 = bd.cells.count 0 ∧
      bd.cells.count pl.value ≤ (ds.foldl (flipStep r c pl) bd).cells.count pl.value := by
  intro ds
  induction ds with
  | nil => exact fun bd _ hwf => ⟨hwf, rfl, rfl, le_refl _⟩
  | cons d ds ih =>
    intro bd hdz hwf
    rw [List.foldl_cons]
    by_cases hcf : canFlipInDirection bd r c d.1 d.2 pl = true
    · have hstep : flipStep r c pl bd d = flipPiecesInDirection bd r c d.1 d.2 pl := by
        unfold flipStep
        rw [if_pos hcf]
      obtain ⟨hwf1, hsz1, hc01, hcp1⟩ := flipPieces_counts hpl hwf (hdz d (by simp)) hcf
      obtain ⟨hwf2, hsz2, hc02, hcp2⟩ := ih _ (fun x hx => hdz x (by simp [hx])) hwf1
      rw [hstep]
      refine ⟨hwf2, by rw [hsz2, hsz1], by rw [hc02, hc01], ?_⟩
      calc bd.cells.count pl.value
          ≤ bd.cells.count pl.value + 1 := by omega
        _ ≤ (flipPiecesInDirection bd r c d.1 d.2 pl).cells.count pl.value := hcp1
        _ ≤ _ := hcp2
    · have hstep : flipStep r c pl bd d = bd := by
        unfold flipStep
        rw [if_neg hcf]
      rw [hstep]
      exact ih bd (fun x hx => hdz x (by simp [hx])) hwf

/-- Split a list at its first element satisfying a decidable test. -/
theorem exists_first_true {α : Type} (p : α → Bool) :
    ∀ (l : List α), l.any p = true →
      ∃ l1 x l2, l = l1 ++ x :: l2 ∧ p x = true ∧ ∀ y ∈ l1, p y = false := by
  intro l
  induction l with
  | nil => intro h; cases h
  | cons a l ih =>
    intro h
    by_cases ha : p a = true
    · exact ⟨[], a, l, rfl, ha, by simp⟩
    · have h' : l.any p = true := by
        rcases List.any_eq_true.mp h with ⟨x, hx, hpx⟩
        rcases List.mem_cons.mp hx with rfl | hx
        · exact absurd hpx ha
        · exact List.any_eq_true.mpr ⟨x, hx, hpx⟩
      obtain ⟨l1, x, l2, rfl, hx, hl1⟩ := ih h'
      refine ⟨a :: l1, x, l2, rfl, hx, ?_⟩
      intro y hy
      rcases List.mem_cons.mp hy with rfl | hy
      · exact Bool.eq_false_iff.mpr ha
      · exact hl1 y hy

/-- Directions whose `can_flip` test fails at the current board leave the
fold unchanged. -/
theorem foldl_flipStep_id (r c : Int) (pl : Player) :
    ∀ (l1 : List (Int × Int)) (bd : Board),
      (∀ y ∈ l1, canFlipInDirection bd r c y.1 y.2 pl = false) →
      l1.foldl (flipStep r c pl) bd = bd := by
  intro l1
  induction l1 with
  | nil => intro bd _; rfl
  | cons a l ih =>
    intro bd h
    rw [List.foldl_cons]
    have hstep : flipStep r c pl bd a = bd := by
      unfold flipStep
      rw [if_neg (by rw [h a (by simp)]; exact Bool.false_ne_true)]
    rw [hstep]
    exact ih bd (fun y hy => h y (by simp [hy]))

/-- Unpacking a positive `is_valid_move`: in bounds, empty target, and some
direction flips. -/
theorem isValidMove_elim {b : Board} {r c : Int} {pl : Player}
    (hv : isValidMove b r c pl = true) :
    inBounds b.size r c ∧ b.get r c = Player.EMPTY.value ∧
    (directions.any fun d => canFlipInDirection b r c d.1 d.2 pl) = true := by
  unfold isValidMove at hv
  by_cases h1 : inBounds b.size r c
  · rw [if_neg (not_not_intro h1)] at hv
    by_cases h2 : b.get r c = Player.EMPTY.value
    · rw [if_neg (not_not_intro h2)] at hv
      exact ⟨h1, h2, hv⟩
    · rw [if_pos h2] at hv
      cases hv
  · rw [if_pos h1] at hv
    cases hv

/-- A legal move is never by the EMPTY pseudo-player: its scan fails in
every direction, so its value 0 never reaches the grid through a move. -/
theorem valid_player_ne_empty {b : Board} {r c : Int} {pl : Player}
    (hv : isValidMove b r c pl = true) : pl.value ≠ 0 := by
  obtain ⟨_, _, hany⟩ := isValidMove_elim hv
  obtain ⟨d, _, hcf⟩ := List.any_eq_true.mp hany
  intro h0
  have hple : pl = Player.EMPTY := by
    cases pl
    · exact absurd h0 (by decide)
    · exact absurd h0 (by decide)
    · rfl
  rw [hple] at hcf
  rw [show canFlipInDirection b r c d.1 d.2 Player.EMPTY
      = canFlipScan b Player.EMPTY (ray b.size r c d.1 d.2) false from rfl,
    canFlipScan_empty] at hcf
  cases hcf

/-- C6: applying a legal move raises the mover's piece count by at least 2
(the placed piece plus at least one flipped piece) and the number of
occupied cells by exactly 1. -/
theorem makeMove_piece_counts (b : Board) (r c : Int) (pl : Player)
    (hwf : WF b) (hv : isValidMove b r c pl = true) :
    playerCount b pl + 2 ≤ playerCount (makeMove b r c pl).2 pl ∧
    occupiedCount (makeMove b r c pl).2 = occupiedCount b + 1 := by
  obtain ⟨hin, hemp, hany⟩ := isValidMove_elim hv
  have hpl : pl.value ≠ 0 := valid_player_ne_empty hv
  have hmm : (makeMove b r c pl).2
      = directions.foldl (flipStep r c pl) (b.set r c pl.value) := by
    unfold makeMove
    rw [if_neg (not_not_intro hv)]
  have hidx : r.toNat * b.size + c.toNat < b.cells.length := by
    rw [hwf]; exact idx_lt_of_inBounds hin
  have hcell0 : b.cells[r.toNat * b.size + c.toNat] = 0 := by
    rw [← get_eq_getElem hin hidx]
    simpa [Player.value] using hemp
  have h1le : 1 ≤ b.cells.count (0 : Int) :=
    List.count_pos_iff.mpr (hcell0 ▸ List.getElem_mem hidx)
  have hwf1 : WF (b.set r c pl.value) := by
    unfold WF
    rw [length_set, size_set]
    exact hwf
  have hc0b1 : (b.set r c pl.value).cells.count 0 = b.cells.count 0 - 1 := by
    show (b.cells.set _ pl.value).count 0 = _
    rw [List.count_set _ _ _ _ hidx]
    simp [hcell0, hpl]
  have hcpb1 : (b.set r c pl.value).cells.count pl.value
      = b.cells.count pl.value + 1 :=
    count_set_plus_one hidx (by rw [hcell0]; exact fun h => hpl h.symm)
  have hget1 : ∀ d ∈ directions,
      canFlipInDirection (b.set r c pl.value) r c d.1 d.2 pl
        = canFlipInDirection b r c d.1 d.2 pl := by
    intro d hd
    have hdnz := dirs_nonzero d hd
    show canFlipScan _ pl (ray (b.set r c pl.value).size r c d.1 d.2) false = _
    rw [size_set]
    exact canFlipScan_congr pl _ false
      (fun q hq => get_set_ne hin pl.value (ray_not_origin hdnz hq))
  have hany1 : (directions.any fun d =>
      canFlipInDirection (b.set r c pl.value) r c d.1 d.2 pl) = true := by
    obtain ⟨d, hd, hcf⟩ := List.any_eq_true.mp hany
    exact List.any_eq_true.mpr ⟨d, hd, by rw [hget1 d hd]; exact hcf⟩
  obtain ⟨l1, x, l2, hsplit, hx, hl1⟩ := exists_first_true _ directions hany1
  have hxdir : x ∈ directions := by
    rw [hsplit]
    exact List.mem_append_right _ (by simp)
  have hl1dir : ∀ y ∈ l1, y ∈ directions := by
    intro y hy
    rw [hsplit]
    exact List.mem_append_left _ hy
  have hl2dir : ∀ y ∈ l2, y ∈ directions := by
    intro y hy
    rw [hsplit]
    exact List.mem_append_right _ (by simp [hy])
  rw [hmm, hsplit, List.foldl_append, foldl_flipStep_id r c pl l1 _ (fun y hy => hl1 y hy),
    List.foldl_cons,
    show flipStep r c pl (b.set r c pl.value) x
      = flipPiecesInDirection (b.set r c pl.value) r c x.1 x.2 pl by
        unfold flipStep
        rw [if_pos hx]]
  obtain ⟨hwf2, hsz2, hc02, hcp2⟩ :=
    flipPieces_counts hpl hwf1 (dirs_nonzero x hxdir) hx
  obtain ⟨hwf3, hsz3, hc03, hcp3⟩ :=
    foldDirs_counts r c pl hpl l2 _ (fun y hy => dirs_nonzero y (hl2dir y hy)) hwf2
  constructor
  · unfold playerCount
    calc b.cells.count pl.value + 2
        = ((b.set r c pl.value).cells.count pl.value) + 1 := by omega
      _ ≤ (flipPiecesInDirection (b.set r c pl.value) r c x.1 x.2 pl).cells.count pl.value
          := hcp2
      _ ≤ _ := hcp3
  · unfold occupiedCount
    have hlen3 : (l2.foldl (flipStep r c pl)
        (flipPiecesInDirection (b.set r c pl.value) r c x.1 x.2 pl)).cells.length
        = b.cells.length := by
      rw [hwf3, hsz3, hsz2, size_set, hwf]
    have hcnt3 : (l2.foldl (flipStep r c pl)
        (flipPiecesInDirection (b.set r c pl.value) r c x.1 x.2 pl)).cells.count 0
        = b.cells.count 0 - 1 := by
      rw [hc03, hc02, hc0b1]
    have hcle : b.cells.count (0 : Int) ≤ b.cells.length := List.count_le_length _ _
    rw [hlen3, hcnt3]
    omega

/-- Witness for C6: Black's legal move (0,1) on the fresh 4×4 board. -/
theorem makeMove_piece_counts_witness :
    WF (mkBoard 4) ∧ isValidMove (mkBoard 4) 0 1 Player.BLACK = true ∧
    (playerCount (mkBoard 4) Player.BLACK + 2 ≤
        playerCount (makeMove (mkBoard 4) 0 1 Player.BLACK).2 Player.BLACK ∧
      occupiedCount (makeMove (mkBoard 4) 0 1 Player.BLACK).2
        = occupiedCount (mkBoard 4) + 1) :=
  ⟨by decide, by decide,
    makeMove_piece_counts (mkBoard 4) 0 1 Player.BLACK (by decide) (by decide)⟩

/-! ### C1: fold lemmas over a linear order -/

section FoldOrder

variable {A : Type} {G : Type} [LinearOrder G] (g : A → G)

theorem foldMax_init_le :
    ∀ (l : List A) (x : G), x ≤ l.foldl (fun a m => max a (g m)) x := by
  intro l
  induction l with
  | nil => exact fun x => le_refl x
  | cons m l ih =>
    intro x
    rw [List.foldl_cons]
    exact le_trans (le_max_left x (g m)) (ih _)

theorem foldMax_mono :
    ∀ (l : List A) (x y : G), x ≤ y →
      l.foldl (fun a m => max a (g m)) x ≤ l.foldl (fun a m => max a (g m)) y := by
  intro l
  induction l with
  | nil => exact fun x y h => h
  | cons m l ih =>
    intro x y h
    rw [List.foldl_cons, List.foldl_cons]
    exact ih _ _ (max_le_max h (le_refl (g m)))

theorem foldMax_pull :
    ∀ (l : List A) (a x : G),
      l.foldl (fun acc m => max acc (g m)) (max a x) =
        max a (l.foldl (fun acc m => max acc (g m)) x) := by
  intro l
  induction l with
  | nil => exact fun a x => rfl
  | cons m l ih =>
    intro a x
    rw [List.foldl_cons, List.foldl_cons, max_assoc, ih]

theorem foldMax_el_le :
    ∀ (l : List A) (x : G) (m : A), m ∈ l → g m ≤ l.foldl (fun a m => max a (g m)) x := by
  intro l
  induction l with
  | nil => intro x m h; cases h
  | cons m' l ih =>
    intro x m hm
    rw [List.foldl_cons]
    rcases List.mem_cons.mp hm with rfl | hm
    · exact le_trans (le_max_right x (g m)) (foldMax_init_le g l _)
    · exact ih _ m hm

theorem foldMin_le_init :
    ∀ (l : List A) (x : G), l.foldl (fun a m => min a (g m)) x ≤ x := by
  intro l
  induction l with
  | nil => exact fun x => le_refl x
  | cons m l ih =>
    intro x
    rw [List.foldl_cons]
    exact le_trans (ih _) (min_le_left x (g m))

theorem foldMin_mono :
    ∀ (l : List A) (x y : G), x ≤ y →
      l.foldl (fun a m => min a (g m)) x ≤ l.foldl (fun a m => min a (g m)) y := by
  intro l
  induction l with
  | nil => exact fun x y h => h
  | cons m l ih =>
    intro x y h
    rw [List.foldl_cons, List.foldl_cons]
    exact ih _ _ (min_le_min h (le_refl (g m)))

theorem foldMin_pull :
    ∀ (l : List A) (a x : G),
      l.foldl (fun acc m => min acc (g m)) (min a x) =
        min a (l.foldl (fun acc m => min acc (g m)) x) := by
  intro l
  induction l with
  | nil => exact fun a x => rfl
  | cons m l ih =>
    intro a x
    rw [List.foldl_cons, List.foldl_cons, min_assoc, ih]

theorem foldMin_le_el :
    ∀ (l : List A) (x : G) (m : A), m ∈ l → l.foldl (fun a m => min a (g m)) x ≤ g m := by
  intro l
  induction l with
  | nil => intro x m h; cases h
  | cons m' l ih =>
    intro x m hm
    rw [List.foldl_cons]
    rcases List.mem_cons.mp hm with rfl | hm
    · exact le_trans (foldMin_le_init g l _) (min_le_right x (g m))
    · exact ih _ m hm

end FoldOrder

/-! ### C1: fail-soft bounds for the pruned loops (Knuth-Moore style) -/

/-- The maximizing alpha-beta loop, started below the window, stays between
`min beta` and `max alpha` of the exact fold of the children's values. -/
theorem abMaxGo_bounds (f : Board → EInt → EInt → EInt) (g : Board → EInt)
    (b : Board) (actor : Player)
    (hf : ∀ (b' : Board) (alpha beta : EInt), alpha < beta →
      min beta (g b') ≤ f b' alpha beta ∧ f b' alpha beta ≤ max alpha (g b')) :
    ∀ (moves : List (Int × Int)) (acc alpha beta : EInt), alpha < beta →
      min beta (moves.foldl (fun a m => max a (g (childBoard b m actor))) acc)
          ≤ abMaxGo f b actor moves acc alpha beta ∧
      abMaxGo f b actor moves acc alpha beta
          ≤ max alpha (moves.foldl (fun a m => max a (g (childBoard b m actor))) acc) := by
  intro moves
  induction moves with
  | nil =>
    intro acc alpha beta _
    exact ⟨min_le_right _ _, le_max_right _ _⟩
  | cons m rest ih =>
    intro acc alpha beta hab
    have hs := hf (childBoard b m actor) alpha beta hab
    rw [List.foldl_cons]
    rw [show abMaxGo f b actor (m :: rest) acc alpha beta
        = (if beta ≤ max alpha (f (childBoard b m actor) alpha beta)
           then max acc (f (childBoard b m actor) alpha beta)
           else abMaxGo f b actor rest
             (max acc (f (childBoard b m actor) alpha beta))
             (max alpha (f (childBoard b m actor) alpha beta)) beta) from rfl]
    set s := f (childBoard b m actor) alpha beta with hsdef
    set v1 := g (childBoard b m actor) with hv1def
    by_cases hpr : beta ≤ max alpha s
    · rw [if_pos hpr]
      have hbs : beta ≤ s := by
        rcases le_max_iff.mp hpr with h | h
        · exact absurd h (not_le.mpr hab)
        · exact h
      constructor
      · exact le_trans (min_le_left _ _) (le_trans hbs (le_max_right acc s))
      · apply max_le
        · exact le_trans (le_trans (le_max_left acc v1)
            (foldMax_init_le (fun m => g (childBoard b m actor)) rest _))
            (le_max_right alpha _)
        · exact le_trans hs.2 (max_le_max (le_refl alpha)
            (le_trans (le_max_right acc v1)
              (foldMax_init_le (fun m => g (childBoard b m actor)) rest _)))
    · rw [if_neg hpr]
      have ha'b : max alpha s < beta := not_le.mp hpr
      have hsb : s < beta := lt_of_le_of_lt (le_max_right alpha s) ha'b
      have hv1b : v1 < beta := by
        by_contra hbv
        push_neg at hbv
        have h1 := hs.1
        rw [min_eq_left hbv] at h1
        exact absurd (lt_of_le_of_lt h1 hsb) (lt_irrefl beta)
      have hv1s : v1 ≤ s := by
        have h1 := hs.1
        rwa [min_eq_right (le_of_lt hv1b)] at h1
      obtain ⟨ihl, ihr⟩ := ih (max acc s) (max alpha s) beta ha'b
      constructor
      · refine le_trans ?_ ihl
        apply min_le_min (le_refl beta)
        exact foldMax_mono _ rest _ _ (max_le_max (le_refl acc) hv1s)
      · refine le_trans ihr (max_le ?_ ?_)
        · apply max_le
          · exact le_max_left alpha _
          · exact le_trans hs.2 (max_le_max (le_refl alpha)
              (le_trans (le_max_right acc v1)
                (foldMax_init_le (fun m => g (childBoard b m actor)) rest _)))
        · have hstep : max acc s ≤ max alpha (max acc v1) := by
            apply max_le
            · exact le_trans (le_max_left acc v1) (le_max_right alpha _)
            · exact le_trans hs.2 (max_le_max (le_refl alpha) (le_max_right acc v1))
          refine le_trans (foldMax_mono _ rest _ _ hstep) ?_
          rw [foldMax_pull (fun m => g (childBoard b m actor)) rest alpha (max acc v1)]

/-- The minimizing alpha-beta loop, mirror image of `abMaxGo_bounds`. -/
theorem abMinGo_bounds (f : Board → EInt → EInt → EInt) (g : Board → EInt)
    (b : Board) (actor : Player)
    (hf : ∀ (b' : Board) (alpha beta : EInt), alpha < beta →
      min beta (g b') ≤ f b' alpha beta ∧ f b' alpha beta ≤ max alpha (g b')) :
    ∀ (moves : List (Int × Int)) (acc alpha beta : EInt), alpha < beta →
      min beta (moves.foldl (fun a m => min a (g (childBoard b m actor))) acc)
          ≤ abMinGo f b actor moves acc alpha beta ∧
      abMinGo f b actor moves acc alpha beta
          ≤ max alpha (moves.foldl (fun a m => min a (g (childBoard b m actor))) acc) := by
  intro moves
  induction moves with
  | nil =>
    intro acc alpha beta _
    exact ⟨min_le_right _ _, le_max_right _ _⟩
  | cons m rest ih =>
    intro acc alpha beta hab
    have hs := hf (childBoard b m actor) alpha beta hab
    rw [List.foldl_cons]
    rw [show abMinGo f b actor (m :: rest) acc alpha beta
        = (if min beta (f (childBoard b m actor) alpha beta) ≤ alpha
           then min acc (f (childBoard b m actor) alpha beta)
           else abMinGo f b actor rest
             (min acc (f (childBoard b m actor) alpha beta))
             alpha (min beta (f (childBoard b m actor) alpha beta))) from rfl]
    set s := f (childBoard b m actor) alpha beta with hsdef
    set v1 := g (childBoard b m actor) with hv1def
    by_cases hpr : min beta s ≤ alpha
    · rw [if_pos hpr]
      have hsa : s ≤ alpha := by
        rcases min_le_iff.mp hpr with h | h
        · exact absurd h (not_le.mpr hab)
        · exact h
      constructor
      · apply le_min
        · exact le_trans (min_le_min (le_refl beta)
            (le_trans (foldMin_le_init (fun m => g (childBoard b m actor)) rest _)
              (min_le_left acc v1))) (min_le_right beta acc)
        · refine le_trans (min_le_min (le_refl beta) ?_) hs.1
          exact le_trans (foldMin_le_init (fun m => g (childBoard b m actor)) rest _)
            (min_le_right acc v1)
      · exact le_trans (min_le_right acc s) (le_trans hsa (le_max_left alpha _))
    · rw [if_neg hpr]
      have hab' : alpha < min beta s := not_le.mp hpr
      have hsa : alpha < s := lt_of_lt_of_le hab' (min_le_right beta s)
      have hv1a : alpha < v1 := by
        by_contra hav
        push_neg at hav
        have h2 := hs.2
        rw [max_eq_left hav] at h2
        exact absurd (lt_of_lt_of_le hsa h2) (lt_irrefl alpha)
      have hsv1 : s ≤ v1 := by
        have h2 := hs.2
        rwa [max_eq_right (le_of_lt hv1a)] at h2
      obtain ⟨ihl, ihr⟩ := ih (min acc s) alpha (min beta s) hab'
      constructor
      · refine le_trans (le_min ?_ ?_) ihl
        · apply le_min
          · exact min_le_left beta _
          · refine le_trans (min_le_min (le_refl beta) ?_) hs.1
            exact le_trans (foldMin_le_init (fun m => g (childBoard b m actor)) rest _)
              (min_le_right acc v1)
        · have hstep : min beta (min acc v1) ≤ min acc s := by
            apply le_min
            · exact le_trans (min_le_right beta _) (min_le_left acc v1)
            · exact le_trans (min_le_min (le_refl beta) (min_le_right acc v1)) hs.1
          refine le_trans ?_ (foldMin_mono _ rest _ _ hstep)
          rw [foldMin_pull (fun m => g (childBoard b m actor)) rest beta (min acc v1)]
      · refine le_trans ihr ?_
        apply max_le_max (le_refl alpha)
        exact foldMin_mono _ rest _ _ (min_le_min (le_refl acc) hsv1)

/-! ### C1: the pruned search computes the exact minimax value -/

/-- Fail-soft alpha-beta invariant: within any window the pruned search is
squeezed between `min beta` and `max alpha` of the unpruned value. -/
theorem minimax_km_bounds (pl : Player) :
    ∀ (d : Nat) (b : Board) (alpha beta : EInt) (isMax : Bool), alpha < beta →
      min beta (npMinimax pl d b isMax) ≤ minimax pl d b alpha beta isMax ∧
      minimax pl d b alpha beta isMax ≤ max alpha (npMinimax pl d b isMax) := by
  intro d
  induction d with
  | zero =>
    intro b alpha beta isMax _
    exact ⟨min_le_right _ _, le_max_right _ _⟩
  | succ d ih =>
    intro b alpha beta isMax hab
    by_cases hgo : isGameOver b = true
    · simp only [minimax, npMinimax, hgo, if_true]
      exact ⟨min_le_right _ _, le_max_right _ _⟩
    · cases isMax with
      | true =>
        simp only [minimax, npMinimax, hgo, Bool.false_eq_true, if_false, if_true,
          Bool.not_true]
        by_cases hemp : (getValidMoves b pl).isEmpty = true
        · simp only [hemp, if_true]
          exact ih b alpha beta false hab
        · simp only [hemp, Bool.false_eq_true, if_false]
          exact abMaxGo_bounds _ (fun b' => npMinimax pl d b' false) b pl
            (fun b' a' b'' h => ih b' a' b'' false h)
            (getValidMoves b pl) ⊥ alpha beta hab
      | false =>
        simp only [minimax, npMinimax, hgo, Bool.false_eq_true, if_false, if_true,
          Bool.not_false]
        by_cases hemp : (getValidMoves b (opponentOf pl)).isEmpty = true
        · simp only [hemp, if_true]
          exact ih b alpha beta true hab
        · simp only [hemp, Bool.false_eq_true, if_false]
          exact abMinGo_bounds _ (fun b' => npMinimax pl d b' true) b (opponentOf pl)
            (fun b' a' b'' h => ih b' a' b'' true h)
            (getValidMoves b (opponentOf pl)) ⊤ alpha beta hab

/-- With the full starting window `(-inf, inf)` the pruned search returns
exactly the unpruned minimax value. -/
theorem minimax_full_window_eq (pl : Player) (d : Nat) (b : Board) (isMax : Bool) :
    minimax pl d b ⊥ ⊤ isMax = npMinimax pl d b isMax := by
  have h := minimax_km_bounds pl d b ⊥ ⊤ isMax bot_lt_top
  have h1 := h.1
  rw [min_eq_right le_top] at h1
  have h2 := h.2
  rw [max_eq_right bot_le] at h2
  exact le_antisymm h2 h1

/-- The move-selection loops agree step by step once the scores agree. -/
theorem minimaxMoveGo_eq (pl : Player) (d : Nat) (b : Board) :
    ∀ (moves : List (Int × Int)) (best : Int × Int) (bs : EInt),
      minimaxMoveGo pl d b moves best bs = npMinimaxMoveGo pl d b moves best bs := by
  intro moves
  induction moves with
  | nil => intro best bs; rfl
  | cons m rest ih =>
    intro best bs
    rw [show minimaxMoveGo pl d b (m :: rest) best bs
        = (if bs < minimax pl d (childBoard b m pl) ⊥ ⊤ false
           then minimaxMoveGo pl d b rest m (minimax pl d (childBoard b m pl) ⊥ ⊤ false)
           else minimaxMoveGo pl d b rest best bs) from rfl,
      show npMinimaxMoveGo pl d b (m :: rest) best bs
        = (if bs < npMinimax pl d (childBoard b m pl) false
           then npMinimaxMoveGo pl d b rest m (npMinimax pl d (childBoard b m pl) false)
           else npMinimaxMoveGo pl d b rest best bs) from rfl,
      minimax_full_window_eq]
    split
    · exact ih _ _
    · exact ih _ _

/-- C1: at difficulty ≥ 3, `get_move` (minimax with alpha-beta pruning)
returns the same move as the unpruned minimax of the same depth with the
same first-max tie-breaking over the same move enumeration.  The size
bound keeps the board inside the regime where the evaluator is total, so
the model is faithful to the source. -/
theorem getMove_pruning_equivalent (cpu : CPU) (b : Board)
    (h3 : 3 ≤ cpu.difficulty) (_h8 : b.size ≤ 8) :
    getMove cpu b = getMoveNP cpu b := by
  unfold getMove getMoveNP
  dsimp only
  by_cases hemp : (getValidMoves b cpu.player).isEmpty = true
  · rw [if_pos hemp, if_pos hemp]
  · rw [if_neg hemp, if_neg hemp]
    have hd2 : ¬ (cpu.difficulty = 2) := by omega
    rw [if_neg hd2, if_neg hd2]
    unfold getMinimaxMove getMinimaxMoveNP
    rw [minimaxMoveGo_eq]

/-- Witness for C1: a concrete CPU at difficulty 3 on the fresh 4×4 board. -/
theorem getMove_pruning_equivalent_witness :
    3 ≤ (CPU.mk Player.BLACK 3).difficulty ∧ (mkBoard 4).size ≤ 8 ∧
    getMove ⟨Player.BLACK, 3⟩ (mkBoard 4) = getMoveNP ⟨Player.BLACK, 3⟩ (mkBoard 4) :=
  ⟨by decide, by decide,
    getMove_pruning_equivalent ⟨Player.BLACK, 3⟩ (mkBoard 4) (by decide) (by decide)⟩

end Othello
